import Mathlib

/-!
Shallow embedding of the browser-based text editor widget
(src/src/features/editor/components/Editor.tsx, primary variant) and
verification of its specification claims.

The document model follows the spec data model: full text plus
caret/selection offsets.  Text is modelled as a list of characters;
JS string indices become list positions.
-/

set_option maxRecDepth 4000

/-- The in-memory Document: buffer text plus caret/selection offsets
(selectionStart and selectionEnd of the textarea). -/
structure Doc where
  text : List Char
  caretStart : Nat
  caretEnd : Nat
deriving DecidableEq, Repr

/-- The indent unit used by the editor (Editor.tsx line 120: a single tab). -/
def INDENT : List Char := ['\t']

/-- Embedding of the JavaScript regex class backslash-s for the characters
that can occur here (ASCII whitespace plus NBSP and BOM; the remaining
exotic Unicode space characters are not modelled). -/
def isJsSpace (c : Char) : Bool :=
  c = ' ' || c = '\t' || c = '\n' || c = '\r' || c = '\x0b' || c = '\x0c' ||
  c = '\u00A0' || c = '\uFEFF'

/-- Characters allowed after the first letter of a tag name:
the regex class of letters, digits and hyphen. -/
def isTagChar (c : Char) : Bool :=
  c.isAlphanum || c = '-'

/-- Matching the regex from Editor.tsx line 213 against the WHOLE suffix
starting at a candidate position: an opening angle bracket, a tag name
(letter then letters/digits/hyphens), optionally one whitespace character
and attribute characters excluding the angle brackets, then a closing
angle bracket which must sit exactly at the end (the dollar anchor).
Returns the captured tag name. -/
def parseOpenSuffix : List Char → Option (List Char)
  | '<' :: c :: rest =>
    if c.isAlpha then
      let s := rest.span isTagChar
      let name := c :: s.1
      match s.2 with
      | ['>'] => some name
      | w :: rest2 =>
        if isJsSpace w then
          let a := rest2.span (fun d => !(d = '<' || d = '>'))
          match a.2 with
          | ['>'] => some name
          | _ => none
        else none
      | [] => none
    else none
  | _ => none

/-- JS RegExp.exec: try the pattern at each start position from the left;
because the pattern is anchored at the end of the string, a match at a
position must consume the whole suffix. -/
def execTagMatch : List Char → Option (List Char)
  | [] => none
  | c :: rest =>
    match parseOpenSuffix (c :: rest) with
    | some nm => some nm
    | none => execTagMatch rest

/-- The pattern as the spec describes it (spec section 4.1 Rule A step 2):
identical tag-name and attribute structure but "ending exactly at the
caret with no trailing closing angle bracket yet".  Defined separately
from the pattern of the code so the two can be compared. -/
def specParseOpen : List Char → Option (List Char)
  | '<' :: c :: rest =>
    if c.isAlpha then
      let s := rest.span isTagChar
      let name := c :: s.1
      match s.2 with
      | [] => some name
      | w :: rest2 =>
        if isJsSpace w then
          let a := rest2.span (fun d => !(d = '<' || d = '>'))
          if a.2 = [] then some name else none
        else none
    else none
  | _ => none

/-- Leftmost match of the version the spec gives of the pattern. -/
def specTagMatch : List Char → Option (List Char)
  | [] => none
  | c :: rest =>
    match specParseOpen (c :: rest) with
    | some nm => some nm
    | none => specTagMatch rest

/-- The void-element set from Editor.tsx lines 217-232. -/
def voidNames : List String :=
  ["area", "base", "br", "col", "embed", "hr", "img", "input",
   "link", "meta", "param", "source", "track", "wbr"]

/-- The default insertion of the host textarea of the typed character when the
handler does not call preventDefault: the selected range is replaced by
the single character and the caret collapses after it. -/
def defaultGt (d : Doc) : Doc :=
  ⟨d.text.take d.caretStart ++ ['>'] ++ d.text.drop d.caretEnd,
   d.caretStart + 1, d.caretStart + 1⟩

/-- Embedding of the closing-angle-bracket branch of handleEditorKeyDown
(Editor.tsx lines 210-242).  On a match with a non-void tag the handler
calls preventDefault and replaceRange(start, start, insertion, start+1):
the insertion happens at caretStart and nothing is deleted, so any
selected text survives after the inserted closing tag. -/
def pressGt (d : Doc) : Doc :=
  let start := d.caretStart
  let before := d.text.take start
  match execTagMatch before with
  | none => defaultGt d
  | some nm =>
    let tag := nm.map Char.toLower
    if String.mk tag ∈ voidNames then defaultGt d
    else
      ⟨d.text.take start ++ ('>' :: '<' :: '/' :: (tag ++ ['>'])) ++ d.text.drop start,
       start + 1, start + 1⟩

/-- C1 (counterexample): at the concrete document with text an unclosed
opening tag of d, i, v and caret 4, the text before the caret matches the
spec pattern (no trailing closing bracket yet) with non-void tag name,
yet pressing the key yields only the default insertion, not the
auto-close result the claim predicts. -/
theorem c1_counterexample :
    specTagMatch "<div".data = some "div".data ∧
    String.mk ("div".data.map Char.toLower) ∉ voidNames ∧
    pressGt ⟨"<div".data, 4, 4⟩ = ⟨"<div>".data, 5, 5⟩ ∧
    "<div>".data ≠ "<div".data ++ ('>' :: '<' :: '/' :: ("div".data ++ ['>'])) := by
  decide

/-- C1 (amended): for every document and caret position where the text
before the caret ends with a COMPLETE opening tag (opening angle bracket,
tag name, optional whitespace plus attribute characters, and its closing
angle bracket sitting exactly at the caret) whose tag name is not a void
element, pressing the closing-bracket key yields
before plus the inserted bracket-and-closing-tag plus after, with the
caret at length(before) + 1. -/
theorem c1_amended (d : Doc) (nm : List Char)
    (hsel : d.caretStart = d.caretEnd)
    (hlen : d.caretStart ≤ d.text.length)
    (hm : execTagMatch (d.text.take d.caretStart) = some nm)
    (hv : String.mk (nm.map Char.toLower) ∉ voidNames) :
    (pressGt d).text
      = d.text.take d.caretStart
          ++ ('>' :: '<' :: '/' :: (nm.map Char.toLower ++ ['>']))
          ++ d.text.drop d.caretStart
    ∧ (pressGt d).caretStart = (d.text.take d.caretStart).length + 1
    ∧ (pressGt d).caretEnd = (d.text.take d.caretStart).length + 1 := by
  have hl : (d.text.take d.caretStart).length = d.caretStart := by
    simp [List.length_take, Nat.min_eq_left hlen]
  refine ⟨?_, ?_, ?_⟩ <;> simp [pressGt, hm, hv, hl]

/-- C1 (witness for the amended theorem). -/
theorem c1_amended_witness :
    (pressGt ⟨"<div>".data, 5, 5⟩).text
      = "<div>".data.take 5
          ++ ('>' :: '<' :: '/' :: ("div".data.map Char.toLower ++ ['>']))
          ++ "<div>".data.drop 5
    ∧ (pressGt ⟨"<div>".data, 5, 5⟩).caretStart = ("<div>".data.take 5).length + 1
    ∧ (pressGt ⟨"<div>".data, 5, 5⟩).caretEnd = ("<div>".data.take 5).length + 1 :=
  c1_amended ⟨"<div>".data, 5, 5⟩ "div".data rfl (by decide) (by decide) (by decide)

/-- C9: whenever the pattern of the code matches a tag whose lowercase form is
in the void-element set (so in particular for any letter case of a void
tag), pressing the closing-bracket key performs only the default
insertion: the selection is replaced by the single typed character and no
closing tag is inserted. -/
theorem c9_void_default (d : Doc) (nm : List Char)
    (hm : execTagMatch (d.text.take d.caretStart) = some nm)
    (hv : String.mk (nm.map Char.toLower) ∈ voidNames) :
    pressGt d = ⟨d.text.take d.caretStart ++ ['>'] ++ d.text.drop d.caretEnd,
                 d.caretStart + 1, d.caretStart + 1⟩ := by
  simp [pressGt, defaultGt, hm, hv]

/-- C9 (witness): an uppercase B R void tag is not auto-closed. -/
theorem c9_void_default_witness :
    pressGt ⟨"<BR>".data, 4, 4⟩
      = ⟨"<BR>".data.take 4 ++ ['>'] ++ "<BR>".data.drop 4, 5, 5⟩ :=
  c9_void_default ⟨"<BR>".data, 4, 4⟩ "BR".data (by decide) (by decide)

/-- C10: whenever the auto-close rule fires (pattern match with a
non-void tag), the inserted text is the typed bracket followed by a
closing tag whose name is the lowercase form of the matched tag name,
regardless of the letter case the user typed. -/
theorem c10_lowercase_close (d : Doc) (nm : List Char)
    (hm : execTagMatch (d.text.take d.caretStart) = some nm)
    (hv : String.mk (nm.map Char.toLower) ∉ voidNames) :
    (pressGt d).text
      = d.text.take d.caretStart
          ++ ('>' :: '<' :: '/' :: (nm.map Char.toLower ++ ['>']))
          ++ d.text.drop d.caretStart := by
  simp [pressGt, hm, hv]

/-- C10 (witness): an uppercase D I V opening tag is closed with a
lowercase closing tag. -/
theorem c10_lowercase_close_witness :
    (pressGt ⟨"<DIV>".data, 5, 5⟩).text
      = "<DIV>".data.take 5
          ++ ('>' :: '<' :: '/' :: ("DIV".data.map Char.toLower ++ ['>']))
          ++ "<DIV>".data.drop 5 :=
  c10_lowercase_close ⟨"<DIV>".data, 5, 5⟩ "DIV".data (by decide) (by decide)

/-- C4 (counterexample): with a non-empty selection over the trailing
A B C and a matching non-void opening tag before the selection start,
the claim predicts that the selected range is removed and the typed
bracket plus closing tag inserted in its place, i.e.
text.take caretStart followed by the inserted bracket-and-closing-tag
followed by text.drop caretEnd; the actual result keeps the selected
text and therefore differs from that prediction. -/
theorem c4_counterexample :
    execTagMatch ("<div>ABC".data.take 5) = some "div".data ∧
    (5 : Nat) ≠ 8 ∧
    pressGt ⟨"<div>ABC".data, 5, 8⟩ = ⟨"<div>></div>ABC".data, 6, 6⟩ ∧
    "<div>></div>ABC".data
      ≠ "<div>ABC".data.take 5
          ++ ('>' :: '<' :: '/' :: ("div".data ++ ['>']))
          ++ "<div>ABC".data.drop 8 := by
  decide

/-- C4 (amended): with a non-empty selection and a matching non-void tag
before the selection start, pressing the closing-bracket key inserts the
bracket plus closing tag at the selection start and LEAVES the selected
range in place after the insertion; the caret collapses to
selection start + 1. -/
theorem c4_amended (d : Doc) (nm : List Char)
    (hsel : d.caretStart < d.caretEnd)
    (hm : execTagMatch (d.text.take d.caretStart) = some nm)
    (hv : String.mk (nm.map Char.toLower) ∉ voidNames) :
    pressGt d
      = ⟨d.text.take d.caretStart
           ++ ('>' :: '<' :: '/' :: (nm.map Char.toLower ++ ['>']))
           ++ d.text.drop d.caretStart,
         d.caretStart + 1, d.caretStart + 1⟩ := by
  simp [pressGt, hm, hv]

/-- C4 (witness for the amended theorem). -/
theorem c4_amended_witness :
    pressGt ⟨"<div>XY".data, 5, 7⟩
      = ⟨"<div>XY".data.take 5
           ++ ('>' :: '<' :: '/' :: ("div".data.map Char.toLower ++ ['>']))
           ++ "<div>XY".data.drop 5,
         6, 6⟩ :=
  c4_amended ⟨"<div>XY".data, 5, 7⟩ "div".data (by decide) (by decide) (by decide)

/-- The browser-origin key-value persistence store (localStorage),
modelled as a journal of bindings with the most recent first; a binding
to none records a removal.  Only the get/set/remove interface below is
used, matching the external-interface contract of the spec. -/
structure Store where
  entries : List (String × Option (List Char))
deriving DecidableEq, Repr

/-- localStorage.getItem. -/
def Store.get (st : Store) (k : String) : Option (List Char) :=
  (st.entries.lookup k).join

/-- localStorage.setItem: overwrites any prior value under the key. -/
def Store.set (st : Store) (k : String) (v : List Char) : Store :=
  ⟨(k, some v) :: st.entries⟩

/-- localStorage.removeItem. -/
def Store.remove (st : Store) (k : String) : Store :=
  ⟨(k, none) :: st.entries⟩

theorem Store.get_set_same (st : Store) (k : String) (v : List Char) :
    (st.set k v).get k = some v := by
  simp [Store.get, Store.set, List.lookup]

theorem Store.get_set_other (st : Store) (k k' : String) (v : List Char)
    (h : k' ≠ k) : (st.set k v).get k' = st.get k' := by
  have hb : (k' == k) = false := by simpa using h
  simp [Store.get, Store.set, List.lookup, hb]

theorem Store.get_remove_same (st : Store) (k : String) :
    (st.remove k).get k = none := by
  simp [Store.get, Store.remove, List.lookup]

theorem Store.get_remove_other (st : Store) (k k' : String) (h : k' ≠ k) :
    (st.remove k).get k' = st.get k' := by
  have hb : (k' == k) = false := by simpa using h
  simp [Store.get, Store.remove, List.lookup, hb]

/-- One hexadecimal digit. -/
def hexDigit (n : Nat) : Char :=
  if n < 10 then Char.ofNat ('0'.toNat + n) else Char.ofNat ('a'.toNat + (n - 10))

/-- JSON.stringify escaping of a single character inside a string
literal: quote, backslash, the named control escapes, and a four-digit
unicode escape for the remaining control characters. -/
def escC (c : Char) : List Char :=
  if c = '"' then ['\\', '"']
  else if c = '\\' then ['\\', '\\']
  else if c = '\n' then ['\\', 'n']
  else if c = '\t' then ['\\', 't']
  else if c = '\r' then ['\\', 'r']
  else if c = '\x08' then ['\\', 'b']
  else if c = '\x0c' then ['\\', 'f']
  else if c.toNat < 32 then
    ['\\', 'u', '0', '0', hexDigit (c.toNat / 16), hexDigit (c.toNat % 16)]
  else [c]

/-- JSON.stringify of a string value. -/
def jsonStr (s : List Char) : List Char :=
  '"' :: (s.map escC).flatten ++ ['"']

/-- JSON.stringify of the draft record written by the cache effect and by
reset: an object with the code, name and savedAt fields in that order. -/
def encodeDraft (code name : List Char) (savedAt : Nat) : List Char :=
  "\x7b\"code\":".data ++ jsonStr code
    ++ ",\"name\":".data ++ jsonStr name
    ++ ",\"savedAt\":".data ++ (toString savedAt).data ++ "\x7d".data

/-- The key the submit handler writes the buffer under
(Editor.tsx line 245). -/
def PREVIEW_KEY : String := "preview-html"

/-- The key the reset handler removes (Editor.tsx line 246); nothing in
the component ever writes it. -/
def FINAL : String := "final-submission"

/-- The persistent-relevant component state: the code buffer, the author
name, the submitted flag and the persistence store. -/
structure EditorState where
  code : List Char
  name : List Char
  submitted : Bool
  store : Store
deriving DecidableEq, Repr

/-- Embedding of handleSubmit (Editor.tsx lines 247-252): the current
buffer is written verbatim under the preview key; the subsequent
window.open navigation is an external effect outside the state. -/
def handleSubmit (s : EditorState) : EditorState :=
  { s with store := s.store.set PREVIEW_KEY s.code }

/-- Embedding of handleReset (Editor.tsx lines 254-266): restore the
original initial code, clear the submitted flag, remove the
final-submission key, then immediately write a fresh draft snapshot of
the restored content under the cache key.  The savedAt timestamp is the
current time, passed as a parameter. -/
def handleReset (cacheKey : String) (initialCode : List Char) (now : Nat)
    (s : EditorState) : EditorState :=
  { s with
    code := initialCode
    submitted := false
    store := (s.store.remove FINAL).set cacheKey
               (encodeDraft initialCode s.name now) }

/-- C2 (counterexample): submitting the buffer X from a fresh state
stores X under the preview key, while the value under the fixed
final-submission key remains absent and in particular does not equal X;
the claim locates the Submission Record at the final-submission key. -/
theorem c2_counterexample :
    (handleSubmit ⟨"X".data, [], false, ⟨[]⟩⟩).store.get FINAL = none
    ∧ (handleSubmit ⟨"X".data, [], false, ⟨[]⟩⟩).store.get FINAL ≠ some "X".data
    ∧ (handleSubmit ⟨"X".data, [], false, ⟨[]⟩⟩).store.get PREVIEW_KEY
        = some "X".data := by
  decide

/-- C2 (amended): for every state, the submit action stores the buffer
verbatim under the fixed preview key; every other key of the store --
the draft cache key and the final-submission key in particular -- is
untouched, and the in-memory buffer and author name are unchanged. -/
theorem c2_amended (s : EditorState) (k : String) (hk : k ≠ PREVIEW_KEY) :
    (handleSubmit s).store.get PREVIEW_KEY = some s.code
    ∧ (handleSubmit s).store.get k = s.store.get k
    ∧ (handleSubmit s).code = s.code
    ∧ (handleSubmit s).name = s.name := by
  exact ⟨Store.get_set_same _ _ _, Store.get_set_other _ _ _ _ hk, rfl, rfl⟩

/-- C2 (witness for the amended theorem), at the default draft cache
key. -/
theorem c2_amended_witness :
    (handleSubmit ⟨"X".data, "n".data, false, ⟨[]⟩⟩).store.get PREVIEW_KEY
        = some "X".data
    ∧ (handleSubmit ⟨"X".data, "n".data, false, ⟨[]⟩⟩).store.get "submission"
        = (⟨[]⟩ : Store).get "submission"
    ∧ (handleSubmit ⟨"X".data, "n".data, false, ⟨[]⟩⟩).code = "X".data
    ∧ (handleSubmit ⟨"X".data, "n".data, false, ⟨[]⟩⟩).name = "n".data :=
  c2_amended ⟨"X".data, "n".data, false, ⟨[]⟩⟩ "submission" (by decide)

/-- C3 (counterexample): submit with buffer X, then reset.  The reset
removes only the never-written final-submission key; the record the
submit action actually persisted (under the preview key) still exists
after the reset, contradicting the claim that a submission written
before a reset no longer exists after it. -/
theorem c3_counterexample :
    (handleReset "submission" "D".data 7
        (handleSubmit ⟨"X".data, [], false, ⟨[]⟩⟩)).store.get PREVIEW_KEY
      = some "X".data
    ∧ (handleReset "submission" "D".data 7
        (handleSubmit ⟨"X".data, [], false, ⟨[]⟩⟩)).store.get FINAL = none := by
  decide

/-- C3 (amended): for every state and any number of prior edits, reset
restores the buffer to the exact original default document, immediately
writes a fresh draft snapshot of that default content under the cache
key, and removes the final-submission key; the preview key -- where the
submit action actually stores submissions -- is left unchanged, so a
prior submission survives the reset. -/
theorem c3_amended (s : EditorState) (ck : String) (init : List Char)
    (t : Nat) (hf : ck ≠ FINAL) (hp : ck ≠ PREVIEW_KEY) :
    (handleReset ck init t s).code = init
    ∧ (handleReset ck init t s).store.get ck = some (encodeDraft init s.name t)
    ∧ (handleReset ck init t s).store.get FINAL = none
    ∧ (handleReset ck init t s).store.get PREVIEW_KEY
        = s.store.get PREVIEW_KEY := by
  refine ⟨rfl, Store.get_set_same _ _ _, ?_, ?_⟩
  · rw [show (handleReset ck init t s).store
        = (s.store.remove FINAL).set ck (encodeDraft init s.name t) from rfl,
      Store.get_set_other _ _ _ _ (fun hc => hf hc.symm)]
    exact Store.get_remove_same _ _
  · rw [show (handleReset ck init t s).store
        = (s.store.remove FINAL).set ck (encodeDraft init s.name t) from rfl,
      Store.get_set_other _ _ _ _ (fun hc => hp hc.symm),
      Store.get_remove_other _ _ _ (by decide)]

/-- C3 (witness for the amended theorem). -/
theorem c3_amended_witness :
    (handleReset "submission" "D".data 7 ⟨"X".data, "n".data, true, ⟨[]⟩⟩).code
      = "D".data
    ∧ (handleReset "submission" "D".data 7
        ⟨"X".data, "n".data, true, ⟨[]⟩⟩).store.get "submission"
      = some (encodeDraft "D".data "n".data 7)
    ∧ (handleReset "submission" "D".data 7
        ⟨"X".data, "n".data, true, ⟨[]⟩⟩).store.get FINAL = none
    ∧ (handleReset "submission" "D".data 7
        ⟨"X".data, "n".data, true, ⟨[]⟩⟩).store.get PREVIEW_KEY
      = (⟨[]⟩ : Store).get PREVIEW_KEY :=
  c3_amended ⟨"X".data, "n".data, true, ⟨[]⟩⟩ "submission" "D".data 7
    (by decide) (by decide)

/-- A JSON value, as produced by a successful JSON.parse.  Objects carry
their fields after duplicate-key resolution. -/
inductive JVal where
  | jnull
  | jbool (b : Bool)
  | jnum (n : Int)
  | jstr (s : List Char)
  | jarr (elems : List JVal)
  | jobj (fields : List (String × JVal))

/-- A raw string sitting in the persistence store, considered up to its
JSON.parse outcome: either it parses to a value or parsing throws. -/
inductive StoredString where
  | json (v : JVal)
  | nonJson (s : List Char)

/-- JavaScript property access on a parsed value, as used by the
destructuring in the mount effect: objects expose their fields; numbers,
booleans, strings and arrays box to objects without a code or name
property.  null is handled before this point because destructuring it
throws. -/
def jfield (v : JVal) (k : String) : Option JVal :=
  match v with
  | .jobj fs => fs.lookup k
  | _ => none

/-- Embedding of the load-cached-draft mount effect (Editor.tsx lines
86-99): read the cache key; if the value is absent, fails to parse, or is
null (destructuring throws, swallowed by the catch), keep both defaults;
otherwise hydrate the code and the name INDEPENDENTLY, each exactly when
its field is a string.  Returns the resulting (code, name) pair. -/
def loadCachedDraft (raw : Option StoredString)
    (defCode defName : List Char) : List Char × List Char :=
  match raw with
  | none => (defCode, defName)
  | some (.nonJson _) => (defCode, defName)
  | some (.json .jnull) => (defCode, defName)
  | some (.json v) =>
    let c := match jfield v "code" with
             | some (.jstr s) => s
             | _ => defCode
    let n := match jfield v "name" with
             | some (.jstr s) => s
             | _ => defName
    (c, n)

/-- C8 (counterexample): a cached record that is an object with a
string-valued code field but NO name field is not well-formed in the
sense of the claim, yet the loader hydrates the Document from it instead of
leaving the default document in place. -/
theorem c8_counterexample :
    loadCachedDraft (some (.json (.jobj [("code", .jstr "X".data)])))
        "D".data "N".data
      = ("X".data, "N".data)
    ∧ "X".data ≠ "D".data := by
  constructor
  · rfl
  · decide

/-- C8 (amended): the mount loader treats the two fields independently:
a string-valued code field hydrates the Document regardless of the name
field, a string-valued name field hydrates the author name regardless of
the code field; an absent value, an unparseable value or a null record
leaves both defaults in place, and no read or parse failure escapes
(the loader is a total function). -/
theorem c8_amended (v : JVal) (s : List Char) (c n dc dn : List Char)
    (hnn : v ≠ .jnull) :
    (jfield v "code" = some (.jstr c) → jfield v "name" = some (.jstr n) →
        loadCachedDraft (some (.json v)) dc dn = (c, n))
    ∧ (jfield v "code" = some (.jstr c) →
        (∀ w, jfield v "name" ≠ some (.jstr w)) →
        loadCachedDraft (some (.json v)) dc dn = (c, dn))
    ∧ ((∀ w, jfield v "code" ≠ some (.jstr w)) →
        jfield v "name" = some (.jstr n) →
        loadCachedDraft (some (.json v)) dc dn = (dc, n))
    ∧ loadCachedDraft none dc dn = (dc, dn)
    ∧ loadCachedDraft (some (.nonJson s)) dc dn = (dc, dn)
    ∧ loadCachedDraft (some (.json .jnull)) dc dn = (dc, dn) := by
  have hload : loadCachedDraft (some (.json v)) dc dn
      = ((match jfield v "code" with
          | some (.jstr s) => s
          | _ => dc),
         (match jfield v "name" with
          | some (.jstr s) => s
          | _ => dn)) := by
    cases v with
    | jnull => exact absurd rfl hnn
    | jbool b => rfl
    | jnum m => rfl
    | jstr t => rfl
    | jarr es => rfl
    | jobj fs => rfl
  refine ⟨fun hc hn => ?_, fun hc hn => ?_, fun hc hn => ?_, rfl, rfl, rfl⟩
  · rw [hload, hc, hn]
  · rw [hload, hc]
    congr 1
    rcases hw : jfield v "name" with _ | w
    · rfl
    · cases w with
      | jstr t => exact absurd hw (hn t)
      | jnull => rfl
      | jbool b => rfl
      | jnum m => rfl
      | jarr es => rfl
      | jobj fs => rfl
  · rw [hload, hn]
    congr 1
    rcases hw : jfield v "code" with _ | w
    · rfl
    · cases w with
      | jstr t => exact absurd hw (hc t)
      | jnull => rfl
      | jbool b => rfl
      | jnum m => rfl
      | jarr es => rfl
      | jobj fs => rfl

/-- C8 (witness for the amended theorem), at a record carrying a string
code field and a numeric name field. -/
theorem c8_amended_witness :
    (jfield (.jobj [("code", .jstr "X".data), ("name", .jnum 3)]) "code"
        = some (.jstr "X".data) →
      jfield (.jobj [("code", .jstr "X".data), ("name", .jnum 3)]) "name"
        = some (.jstr "Y".data) →
      loadCachedDraft
        (some (.json (.jobj [("code", .jstr "X".data), ("name", .jnum 3)])))
        "D".data "N".data = ("X".data, "Y".data))
    ∧ (jfield (.jobj [("code", .jstr "X".data), ("name", .jnum 3)]) "code"
        = some (.jstr "X".data) →
      (∀ w, jfield (.jobj [("code", .jstr "X".data), ("name", .jnum 3)]) "name"
        ≠ some (.jstr w)) →
      loadCachedDraft
        (some (.json (.jobj [("code", .jstr "X".data), ("name", .jnum 3)])))
        "D".data "N".data = ("X".data, "N".data))
    ∧ ((∀ w, jfield (.jobj [("code", .jstr "X".data), ("name", .jnum 3)]) "code"
        ≠ some (.jstr w)) →
      jfield (.jobj [("code", .jstr "X".data), ("name", .jnum 3)]) "name"
        = some (.jstr "Y".data) →
      loadCachedDraft
        (some (.json (.jobj [("code", .jstr "X".data), ("name", .jnum 3)])))
        "D".data "N".data = ("D".data, "Y".data))
    ∧ loadCachedDraft none "D".data "N".data = ("D".data, "N".data)
    ∧ loadCachedDraft (some (.nonJson "oops".data)) "D".data "N".data
        = ("D".data, "N".data)
    ∧ loadCachedDraft (some (.json .jnull)) "D".data "N".data
        = ("D".data, "N".data) :=
  c8_amended (.jobj [("code", .jstr "X".data), ("name", .jnum 3)])
    "oops".data "X".data "Y".data "D".data "N".data (by intro h; cases h)

/-- The quiet period of the debounced cache effect (Editor.tsx line
110): 300 milliseconds. -/
def QUIET : Nat := 300

/-- The data captured by one run of the cache effect: the current buffer
and author name (the cache key is constant across a session). -/
abbrev Payload := List Char × List Char

/-- State of the debounced persistence effect: at most one pending timer
(its fire time and the captured payload) plus the log of persisted
writes, each recorded as (savedAt, payload). -/
structure DebState where
  pending : Option (Nat × Payload)
  writes : List (Nat × Payload)
deriving DecidableEq, Repr

/-- Advance wall-clock time to t: a pending timer whose fire time has
arrived fires and appends its write; otherwise nothing happens. -/
def fireDue (m : DebState) (t : Nat) : DebState :=
  match m.pending with
  | some (ft, p) =>
    if ft ≤ t then ⟨none, m.writes ++ [(ft, p)]⟩ else m
  | none => m

/-- A dependency change at time t (Editor.tsx lines 102-112): the effect
cleanup clears any still-pending timer (cancelling it without a write)
and a new timer is scheduled for the quiet period after t, capturing the
new payload.  A timer already due has fired before the change. -/
def depChange (m : DebState) (t : Nat) (p : Payload) : DebState :=
  let m1 := fireDue m t
  ⟨some (t + QUIET, p), m1.writes⟩

/-- Run a sequence of timestamped dependency changes. -/
def runChanges (m : DebState) : List (Nat × Payload) → DebState
  | [] => m
  | (t, p) :: rest => runChanges (depChange m t p) rest

/-- Let enough quiet time pass for any pending timer to fire. -/
def settle (m : DebState) : DebState :=
  match m.pending with
  | some (ft, p) => ⟨none, m.writes ++ [(ft, p)]⟩
  | none => m

/-- A burst relative to a previous change at time prev: each next change
arrives no earlier than the previous one and strictly within its quiet
period. -/
def isBurst : Nat → List (Nat × Payload) → Bool
  | _, [] => true
  | prev, (t, _) :: rest => decide (prev ≤ t) && decide (t < prev + QUIET) && isBurst t rest

/-- The time and payload of the last change of a burst. -/
def burstLast (t : Nat) (p : Payload) : List (Nat × Payload) → Nat × Payload
  | [] => (t, p)
  | (t', p') :: rest => burstLast t' p' rest

theorem runChanges_burst (rest : List (Nat × Payload)) :
    ∀ (t : Nat) (p : Payload) (w : List (Nat × Payload)),
      isBurst t rest = true →
      runChanges ⟨some (t + QUIET, p), w⟩ rest
        = ⟨some ((burstLast t p rest).1 + QUIET, (burstLast t p rest).2), w⟩ := by
  induction rest with
  | nil => intro t p w _; rfl
  | cons e rest ih =>
    rcases e with ⟨t', p'⟩
    intro t p w hb
    simp only [isBurst, Bool.and_eq_true, decide_eq_true_eq] at hb
    obtain ⟨⟨hle, hlt⟩, hb'⟩ := hb
    have hnot : ¬ (t + QUIET ≤ t') := by omega
    simp only [runChanges, depChange, fireDue, hnot, if_false, burstLast]
    exact ih t' p' w hb'

/-- C7: for every burst of one or more Document or author-name changes,
each arriving strictly within the quiet period of the previous one and
starting from a quiescent effect state, no write happens during the
burst; after every change exactly one timer is pending, scheduled a
quiet period after the latest change and carrying only the latest
payload (trailing-edge debounce); and once the burst settles exactly one
write is persisted, containing only the final state, stamped one quiet
period after the last change. -/
theorem c7_debounce (t0 : Nat) (p0 : Payload) (rest : List (Nat × Payload))
    (hb : isBurst t0 rest = true) :
    (runChanges ⟨none, []⟩ ((t0, p0) :: rest)).writes = []
    ∧ (runChanges ⟨none, []⟩ ((t0, p0) :: rest)).pending
        = some ((burstLast t0 p0 rest).1 + QUIET, (burstLast t0 p0 rest).2)
    ∧ (settle (runChanges ⟨none, []⟩ ((t0, p0) :: rest))).writes
        = [((burstLast t0 p0 rest).1 + QUIET, (burstLast t0 p0 rest).2)]
    ∧ (settle (runChanges ⟨none, []⟩ ((t0, p0) :: rest))).pending = none := by
  have h1 : runChanges ⟨none, []⟩ ((t0, p0) :: rest)
      = ⟨some ((burstLast t0 p0 rest).1 + QUIET, (burstLast t0 p0 rest).2), []⟩ := by
    simp only [runChanges, depChange, fireDue]
    exact runChanges_burst rest t0 p0 [] hb
  rw [h1]
  exact ⟨rfl, rfl, rfl, rfl⟩

/-- C7 (witness): a three-change burst at times 0, 100 and 250 produces
no mid-burst write and, after settling, exactly one write at time 550
containing only the final buffer. -/
theorem c7_debounce_witness :
    (runChanges ⟨none, []⟩
        [(0, ("a".data, "n".data)), (100, ("ab".data, "n".data)),
         (250, ("abc".data, "n".data))]).writes = []
    ∧ (runChanges ⟨none, []⟩
        [(0, ("a".data, "n".data)), (100, ("ab".data, "n".data)),
         (250, ("abc".data, "n".data))]).pending
        = some ((burstLast 0 ("a".data, "n".data)
            [(100, ("ab".data, "n".data)), (250, ("abc".data, "n".data))]).1
              + QUIET,
          (burstLast 0 ("a".data, "n".data)
            [(100, ("ab".data, "n".data)), (250, ("abc".data, "n".data))]).2)
    ∧ (settle (runChanges ⟨none, []⟩
        [(0, ("a".data, "n".data)), (100, ("ab".data, "n".data)),
         (250, ("abc".data, "n".data))])).writes
        = [((burstLast 0 ("a".data, "n".data)
            [(100, ("ab".data, "n".data)), (250, ("abc".data, "n".data))]).1
              + QUIET,
           (burstLast 0 ("a".data, "n".data)
            [(100, ("ab".data, "n".data)), (250, ("abc".data, "n".data))]).2)]
    ∧ (settle (runChanges ⟨none, []⟩
        [(0, ("a".data, "n".data)), (100, ("ab".data, "n".data)),
         (250, ("abc".data, "n".data))])).pending = none :=
  c7_debounce 0 ("a".data, "n".data)
    [(100, ("ab".data, "n".data)), (250, ("abc".data, "n".data))] (by decide)

/-- Greatest index of a newline in the list, if any. -/
def lastNLPos : List Char → Option Nat
  | [] => none
  | c :: rest =>
    match lastNLPos rest with
    | some i => some (i + 1)
    | none => if c = '\n' then some 0 else none

/-- Embedding of value.lastIndexOf of a newline at position start-1, plus
one (Editor.tsx line 149).  The JS fromIndex is clamped below at zero,
so for start = 0 position 0 is still examined: the candidates are the
first max(start, 1) characters. -/
def lineStartIdx (t : List Char) (s : Nat) : Nat :=
  match lastNLPos (t.take (max s 1)) with
  | some i => i + 1
  | none => 0

/-- Distance to the first newline, or the length if there is none. -/
def nlDist : List Char → Nat
  | [] => 0
  | c :: rest => if c = '\n' then 0 else nlDist rest + 1

/-- Embedding of value.indexOf of a newline from position e, with -1
mapped to the length (Editor.tsx lines 150-152). -/
def blockEndIdx (t : List Char) (e : Nat) : Nat :=
  min e t.length + nlDist (t.drop e)

/-- Split a character list into its newline-separated lines, in the
sense of the JS string split: always at least one (possibly empty)
line. -/
def splitNL : List Char → List (List Char)
  | [] => [[]]
  | c :: rest =>
    let r := splitNL rest
    if c = '\n' then [] :: r
    else
      match r with
      | l :: ls => (c :: l) :: ls
      | [] => [[c]]

/-- Join lines with newline separators; inverse of splitNL. -/
def joinNL : List (List Char) → List Char
  | [] => []
  | [l] => l
  | l :: ls => l ++ '\n' :: joinNL ls

/-- The per-line action of the outdent regex (Editor.tsx lines 159-163)
with the tab indent unit: the alternative of one tab or a run of one to
one spaces anchored at line start, removed.  A leading tab is stripped;
otherwise exactly one leading space is stripped; other lines are
unchanged. -/
def outdentLine (l : List Char) : List Char :=
  match l with
  | [] => []
  | c :: rest => if c = '\t' then rest else if c = ' ' then rest else c :: rest

/-- block.replace of the multiline outdent regex by the empty string. -/
def outdentBlock (x : List Char) : List Char :=
  joinNL ((splitNL x).map outdentLine)

/-- block.replace of the multiline start-of-line anchor by the indent
unit (Editor.tsx line 177): every line is prefixed with it. -/
def indentBlock (x : List Char) : List Char :=
  joinNL ((splitNL x).map (fun l => INDENT ++ l))

/-- block.split by newline, counted (Editor.tsx line 180). -/
def countLines (x : List Char) : Nat :=
  (splitNL x).length

/-- The non-multiline test of the outdent pattern against the block
(Editor.tsx lines 167-169): does the block start with the indent unit or
a single space. -/
def hasLeadIndent (x : List Char) : Bool :=
  match x with
  | '\t' :: _ => true
  | ' ' :: _ => true
  | _ => false

/-- Embedding of the Tab branch of handleEditorKeyDown (Editor.tsx lines
141-207).  The affected block runs from the start of the line containing
the selection start to the end of the line containing the selection end.
With a selection, indent prefixes every block line with the indent unit
and outdent applies the per-line strip; without a selection, indent
inserts the unit at the caret and outdent strips the leading unit
(or single space) of the caret line if present.  Selection updates follow the
setSelectionRange calls, with JS Math.max clamping. -/
def pressTab (shift : Bool) (d : Doc) : Doc :=
  let start := d.caretStart
  let en := d.caretEnd
  let value := d.text
  let blockStart := lineStartIdx value start
  let blockEnd := blockEndIdx value en
  if start ≠ en then
    let block := (value.take blockEnd).drop blockStart
    if shift then
      let outdented := outdentBlock block
      let removedOnFirstLine := if hasLeadIndent block then INDENT.length else 0
      let newStart := max blockStart (start - removedOnFirstLine)
      let newEnd := max newStart (en - (block.length - outdented.length))
      ⟨value.take blockStart ++ outdented ++ value.drop blockEnd,
       newStart, newEnd⟩
    else
      let indented := indentBlock block
      ⟨value.take blockStart ++ indented ++ value.drop blockEnd,
       start + INDENT.length, en + INDENT.length * countLines block⟩
  else
    if shift then
      let pre := (value.take (blockStart + INDENT.length)).drop blockStart
      let removeLen :=
        if pre = INDENT then INDENT.length
        else if !pre.isEmpty && pre.all (fun c => c = ' ') then
          min pre.length INDENT.length
        else 0
      if removeLen > 0 then
        let newPos := max blockStart (start - removeLen)
        ⟨value.take blockStart ++ value.drop (blockStart + removeLen),
         newPos, newPos⟩
      else d
    else
      ⟨value.take start ++ INDENT ++ value.drop en,
       start + INDENT.length, start + INDENT.length⟩

theorem splitNL_ne_nil (l : List Char) : splitNL l ≠ [] := by
  cases l with
  | nil => simp [splitNL]
  | cons c rest =>
    simp only [splitNL]
    by_cases h : c = '\n'
    · simp [h]
    · simp only [h, if_false]
      cases splitNL rest with
      | nil => simp
      | cons x xs => simp

theorem splitNL_nl_cons (rest : List Char) :
    splitNL ('\n' :: rest) = [] :: splitNL rest := by
  simp [splitNL]

theorem splitNL_cons_ne (c : Char) (rest : List Char) (h : c ≠ '\n') :
    splitNL (c :: rest)
      = match splitNL rest with
        | l :: ls => (c :: l) :: ls
        | [] => [[c]] := by
  simp [splitNL, h]

theorem joinNL_cons (l : List Char) (ls : List (List Char)) (h : ls ≠ []) :
    joinNL (l :: ls) = l ++ '\n' :: joinNL ls := by
  cases ls with
  | nil => exact absurd rfl h
  | cons x xs => rfl

theorem joinNL_cons_head (x : Char) (h : List Char) (T : List (List Char)) :
    joinNL ((x :: h) :: T) = x :: joinNL (h :: T) := by
  cases T with
  | nil => rfl
  | cons a as => rfl

theorem joinNL_splitNL (l : List Char) : joinNL (splitNL l) = l := by
  induction l with
  | nil => rfl
  | cons c rest ih =>
    by_cases h : c = '\n'
    · subst h
      rw [splitNL_nl_cons, joinNL_cons _ _ (splitNL_ne_nil rest), ih]
      rfl
    · rw [splitNL_cons_ne c rest h]
      cases hs : splitNL rest with
      | nil => exact absurd hs (splitNL_ne_nil rest)
      | cons x xs =>
        rw [joinNL_cons_head, ← hs, ih]

theorem nlfree_splitNL (l : List Char) (h : '\n' ∉ l) : splitNL l = [l] := by
  induction l with
  | nil => rfl
  | cons c rest ih =>
    have hc : c ≠ '\n' := fun hc => h (hc ▸ List.mem_cons_self c rest)
    have hr : '\n' ∉ rest := fun hr => h (List.mem_cons_of_mem c hr)
    rw [splitNL_cons_ne c rest hc, ih hr]

theorem mem_splitNL_nlfree (l : List Char) (s : List Char)
    (hs : s ∈ splitNL l) : '\n' ∉ s := by
  induction l generalizing s with
  | nil =>
    simp only [splitNL, List.mem_singleton] at hs
    subst hs; simp
  | cons c rest ih =>
    by_cases h : c = '\n'
    · subst h
      rw [splitNL_nl_cons] at hs
      rcases List.mem_cons.mp hs with hs1 | hs1
      · subst hs1; simp
      · exact ih s hs1
    · rw [splitNL_cons_ne c rest h] at hs
      cases hr : splitNL rest with
      | nil => exact absurd hr (splitNL_ne_nil rest)
      | cons x xs =>
        rw [hr] at hs
        rcases List.mem_cons.mp hs with hs1 | hs1
        · subst hs1
          intro hmem
          rcases List.mem_cons.mp hmem with hx | hx
          · exact h hx.symm
          · exact ih x (hr ▸ List.mem_cons_self x xs) hx
        · exact ih s (hr ▸ List.mem_cons_of_mem x hs1)

theorem splitNL_joinNL (M : List (List Char)) (hM : M ≠ [])
    (hf : ∀ s ∈ M, '\n' ∉ s) : splitNL (joinNL M) = M := by
  induction M with
  | nil => exact absurd rfl hM
  | cons l ls ih =>
    cases ls with
    | nil =>
      exact nlfree_splitNL l (hf l (List.mem_cons_self l []))
    | cons x xs =>
      rw [joinNL_cons _ _ (by simp)]
      have hl : '\n' ∉ l := hf l (List.mem_cons_self _ _)
      have hrest : splitNL (joinNL (x :: xs)) = x :: xs :=
        ih (by simp) (fun s hs => hf s (List.mem_cons_of_mem _ hs))
      clear ih hM hf
      induction l with
      | nil =>
        rw [List.nil_append, splitNL_nl_cons, hrest]
      | cons c cs ihl =>
        have hc : c ≠ '\n' := fun hc => hl (hc ▸ List.mem_cons_self c cs)
        have hcs : '\n' ∉ cs := fun hcm => hl (List.mem_cons_of_mem c hcm)
        have hx := ihl hcs
        rw [List.cons_append, splitNL_cons_ne c _ hc, hx]

theorem splitNL_append_nlfree_left (p q : List Char) (hp : '\n' ∉ p) :
    ∃ h t, splitNL q = h :: t ∧ splitNL (p ++ q) = (p ++ h) :: t := by
  induction p with
  | nil =>
    cases hq : splitNL q with
    | nil => exact absurd hq (splitNL_ne_nil q)
    | cons h t => exact ⟨h, t, rfl, by simpa using hq⟩
  | cons c cs ih =>
    have hc : c ≠ '\n' := fun hc => hp (hc ▸ List.mem_cons_self c cs)
    have hcs : '\n' ∉ cs := fun hm => hp (List.mem_cons_of_mem c hm)
    obtain ⟨h, t, hq, hpq⟩ := ih hcs
    refine ⟨h, t, hq, ?_⟩
    rw [List.cons_append, splitNL_cons_ne c _ hc, hpq]
    rfl

theorem splitNL_append_nlfree_right (u v : List Char) (hv : '\n' ∉ v) :
    ∃ M lst, splitNL u = M ++ [lst] ∧ splitNL (u ++ v) = M ++ [lst ++ v] := by
  induction u with
  | nil =>
    refine ⟨[], [], rfl, ?_⟩
    rw [List.nil_append, List.nil_append, nlfree_splitNL v hv]
  | cons c cs ih =>
    obtain ⟨M, lst, hu, huv⟩ := ih
    by_cases hc : c = '\n'
    · subst hc
      refine ⟨[] :: M, lst, ?_, ?_⟩
      · rw [splitNL_nl_cons, hu]; rfl
      · rw [List.cons_append, splitNL_nl_cons, huv]; rfl
    · cases M with
      | nil =>
        refine ⟨[], c :: lst, ?_, ?_⟩
        · rw [splitNL_cons_ne c _ hc, hu]
          rfl
        · rw [List.cons_append, splitNL_cons_ne c _ hc, huv]
          rfl
      | cons m ms =>
        refine ⟨(c :: m) :: ms, lst, ?_, ?_⟩
        · rw [splitNL_cons_ne c _ hc, hu]; rfl
        · rw [List.cons_append, splitNL_cons_ne c _ hc, huv]; rfl

theorem joinNL_append_last (M : List (List Char)) (lst v : List Char) :
    joinNL (M ++ [lst ++ v]) = joinNL (M ++ [lst]) ++ v := by
  induction M with
  | nil => rfl
  | cons m ms ih =>
    rw [List.cons_append, List.cons_append,
      joinNL_cons _ _ (by simp), joinNL_cons _ _ (by simp), ih]
    simp

theorem length_joinNL (M : List (List Char)) (hM : M ≠ []) :
    (joinNL M).length = (M.map List.length).sum + (M.length - 1) := by
  induction M with
  | nil => exact absurd rfl hM
  | cons m ms ih =>
    cases ms with
    | nil => simp [joinNL]
    | cons x xs =>
      rw [joinNL_cons _ _ (by simp)]
      have := ih (by simp)
      simp only [List.length_append, List.length_cons, this]
      simp [List.map_cons, List.sum_cons]
      omega

theorem countLines_append_nlfree (u v : List Char) (hv : '\n' ∉ v) :
    countLines (u ++ v) = countLines u := by
  obtain ⟨M, lst, hu, huv⟩ := splitNL_append_nlfree_right u v hv
  simp [countLines, hu, huv]

theorem indentBlock_append_nlfree (u v : List Char) (hv : '\n' ∉ v) :
    indentBlock (u ++ v) = indentBlock u ++ v := by
  obtain ⟨M, lst, hu, huv⟩ := splitNL_append_nlfree_right u v hv
  unfold indentBlock
  rw [hu, huv, List.map_append, List.map_append]
  simp only [List.map_cons, List.map_nil]
  have : INDENT ++ (lst ++ v) = (INDENT ++ lst) ++ v := by simp
  rw [this, joinNL_append_last]

theorem indentBlock_cons_nlfree (p q : List Char) (hp : '\n' ∉ p) :
    ∃ r, indentBlock (p ++ q) = '\t' :: (p ++ r) := by
  obtain ⟨h, t, hq, hpq⟩ := splitNL_append_nlfree_left p q hp
  unfold indentBlock
  rw [hpq]
  simp only [List.map_cons]
  cases t with
  | nil =>
    exact ⟨h, by simp [joinNL, INDENT]⟩
  | cons a as =>
    refine ⟨h ++ '\n' :: joinNL (List.map (fun l => INDENT ++ l) (a :: as)), ?_⟩
    rw [joinNL_cons _ _ (by simp)]
    simp [INDENT]

theorem length_indentBlock (x : List Char) :
    (indentBlock x).length = x.length + countLines x := by
  have h1 : (joinNL ((splitNL x).map (fun l => INDENT ++ l))).length
      = (((splitNL x).map (fun l => INDENT ++ l)).map List.length).sum
        + (((splitNL x).map (fun l => INDENT ++ l)).length - 1) := by
    apply length_joinNL
    intro hc
    exact splitNL_ne_nil x (List.map_eq_nil_iff.mp hc)
  have h2 : (joinNL (splitNL x)).length
      = ((splitNL x).map List.length).sum + ((splitNL x).length - 1) :=
    length_joinNL _ (splitNL_ne_nil x)
  rw [joinNL_splitNL] at h2
  unfold indentBlock countLines
  rw [h1]
  have h3 : (((splitNL x).map (fun l => INDENT ++ l)).map List.length).sum
      = ((splitNL x).map List.length).sum + (splitNL x).length := by
    rw [List.map_map]
    have : (List.length ∘ fun l => INDENT ++ l)
        = fun l : List Char => l.length + 1 := by
      funext l; simp [INDENT]
    rw [this]
    induction splitNL x with
    | nil => rfl
    | cons a as ih => simp [ih]; omega
  rw [h3, List.length_map, h2]
  have := splitNL_ne_nil x
  have hpos : 0 < (splitNL x).length := List.length_pos.mpr this
  omega

theorem outdentBlock_indentBlock (x : List Char) :
    outdentBlock (indentBlock x) = x := by
  unfold outdentBlock indentBlock
  rw [splitNL_joinNL]
  · rw [List.map_map]
    have : (outdentLine ∘ fun l => INDENT ++ l) = id := by
      funext l; simp [INDENT, outdentLine]
    rw [this, List.map_id, joinNL_splitNL]
  · intro hc
    exact splitNL_ne_nil x (List.map_eq_nil_iff.mp hc)
  · intro s hs
    rw [List.mem_map] at hs
    obtain ⟨l, hl, rfl⟩ := hs
    have := mem_splitNL_nlfree x l hl
    simp [INDENT]
    exact this

theorem nlDist_le_length (l : List Char) : nlDist l ≤ l.length := by
  induction l with
  | nil => simp [nlDist]
  | cons c rest ih =>
    simp only [nlDist, List.length_cons]
    by_cases h : c = '\n'
    · simp [h]
    · simp [h]; omega

theorem nlfree_take_nlDist (l : List Char) : '\n' ∉ l.take (nlDist l) := by
  induction l with
  | nil => simp
  | cons c rest ih =>
    simp only [nlDist]
    by_cases h : c = '\n'
    · simp [h]
    · simp only [h, if_false, List.take_succ_cons, List.mem_cons]
      rintro (hc | hc)
      · exact h hc.symm
      · exact ih hc

theorem drop_nlDist_cases (l : List Char) :
    l.drop (nlDist l) = [] ∨ ∃ r, l.drop (nlDist l) = '\n' :: r := by
  induction l with
  | nil => left; rfl
  | cons c rest ih =>
    simp only [nlDist]
    by_cases h : c = '\n'
    · right; exact ⟨rest, by simp [h]⟩
    · simp only [h, if_false]
      simpa using ih

theorem nlDist_cons (c : Char) (r : List Char) :
    nlDist (c :: r) = if c = '\n' then 0 else nlDist r + 1 := rfl

theorem lastNLPos_cons (c : Char) (r : List Char) :
    lastNLPos (c :: r)
      = match lastNLPos r with
        | some i => some (i + 1)
        | none => if c = '\n' then some 0 else none := rfl

theorem nlDist_append_nlfree (v w : List Char) (hv : '\n' ∉ v) :
    nlDist (v ++ w) = v.length + nlDist w := by
  induction v with
  | nil => simp
  | cons c cs ih =>
    have hc : c ≠ '\n' := fun h => hv (h ▸ List.mem_cons_self c cs)
    have hcs : '\n' ∉ cs := fun h => hv (List.mem_cons_of_mem c h)
    rw [List.cons_append, nlDist_cons, if_neg hc, ih hcs, List.length_cons]
    omega

theorem nlDist_nl_cons (r : List Char) : nlDist ('\n' :: r) = 0 := by
  simp [nlDist]

theorem lastNLPos_none_iff (l : List Char) :
    lastNLPos l = none ↔ '\n' ∉ l := by
  induction l with
  | nil => simp [lastNLPos]
  | cons c rest ih =>
    rw [lastNLPos_cons]
    cases hr : lastNLPos rest with
    | some i =>
      have hmem : '\n' ∈ rest := by
        by_contra hn
        rw [ih.mpr hn] at hr
        cases hr
      simp [hmem]
    | none =>
      have hrest : '\n' ∉ rest := ih.mp hr
      by_cases hc : c = '\n'
      · subst hc
        simp
      · simp only [if_neg hc, List.mem_cons]
        constructor
        · intro _ hcon
          rcases hcon with h1 | h1
          · exact hc h1.symm
          · exact hrest h1
        · intro _
          trivial

theorem lastNLPos_append_nlfree (p q : List Char) (hq : '\n' ∉ q) :
    lastNLPos (p ++ q) = lastNLPos p := by
  induction p with
  | nil =>
    rw [List.nil_append, (lastNLPos_none_iff q).mpr hq]
    rfl
  | cons c cs ih =>
    rw [List.cons_append, lastNLPos_cons, lastNLPos_cons, ih]

theorem lastNLPos_take_succ (l : List Char) (i : Nat)
    (h : lastNLPos l = some i) : lastNLPos (l.take (i + 1)) = some i := by
  induction l generalizing i with
  | nil => cases h
  | cons c rest ih =>
    rw [lastNLPos_cons] at h
    cases hr : lastNLPos rest with
    | some j =>
      rw [hr] at h
      injection h with h
      subst h
      rw [List.take_succ_cons, lastNLPos_cons, ih j hr]
    | none =>
      rw [hr] at h
      by_cases hc : c = '\n'
      · rw [if_pos hc] at h
        injection h with h
        subst h
        rw [List.take_succ_cons, List.take_zero, lastNLPos_cons]
        simp [lastNLPos, hc]
      · rw [if_neg hc] at h
        cases h

theorem lastNLPos_lt_length (l : List Char) (i : Nat)
    (h : lastNLPos l = some i) : i < l.length := by
  induction l generalizing i with
  | nil => cases h
  | cons c rest ih =>
    rw [lastNLPos_cons] at h
    cases hr : lastNLPos rest with
    | some j =>
      rw [hr] at h
      injection h with h
      subst h
      simpa using ih j hr
    | none =>
      rw [hr] at h
      by_cases hc : c = '\n'
      · rw [if_pos hc] at h
        injection h with h
        subst h
        simp
      · rw [if_neg hc] at h
        cases h

theorem lastNLPos_drop_nlfree (l : List Char) (i : Nat)
    (h : lastNLPos l = some i) : '\n' ∉ l.drop (i + 1) := by
  induction l generalizing i with
  | nil => cases h
  | cons c rest ih =>
    rw [lastNLPos_cons] at h
    cases hr : lastNLPos rest with
    | some j =>
      rw [hr] at h
      injection h with h
      subst h
      simpa using ih j hr
    | none =>
      rw [hr] at h
      by_cases hc : c = '\n'
      · rw [if_pos hc] at h
        injection h with h
        subst h
        simpa using (lastNLPos_none_iff rest).mp hr
      · rw [if_neg hc] at h
        cases h

theorem lineStart_cases (t : List Char) (s : Nat) (hs : 1 ≤ s) :
    (lineStartIdx t s = 0 ∧ '\n' ∉ t.take s) ∨
    (∃ i, lineStartIdx t s = i + 1 ∧ i + 1 ≤ s ∧
      lastNLPos (t.take (i + 1)) = some i ∧
      '\n' ∉ (t.take s).drop (i + 1)) := by
  unfold lineStartIdx
  rw [max_eq_left hs]
  cases h : lastNLPos (t.take s) with
  | none =>
    left
    exact ⟨rfl, (lastNLPos_none_iff _).mp h⟩
  | some i =>
    right
    refine ⟨i, rfl, ?_, ?_, lastNLPos_drop_nlfree _ _ h⟩
    · have h1 := lastNLPos_lt_length _ _ h
      rw [List.length_take] at h1
      omega
    · have h3 := lastNLPos_take_succ _ _ h
      have h4 := lastNLPos_lt_length _ _ h
      rw [List.length_take] at h4
      rw [List.take_take, min_eq_left (by omega)] at h3
      exact h3

theorem lineStartIdx_le_max (t : List Char) (s : Nat) :
    lineStartIdx t s ≤ max s 1 := by
  unfold lineStartIdx
  cases h : lastNLPos (t.take (max s 1)) with
  | none => simp
  | some i =>
    have h1 := lastNLPos_lt_length _ _ h
    rw [List.length_take] at h1
    show i + 1 ≤ max s 1
    omega

theorem lineStartIdx_zero (t : List Char) :
    lineStartIdx t 0 = if t.take 1 = ['\n'] then 1 else 0 := by
  cases t with
  | nil => rfl
  | cons c t' =>
    unfold lineStartIdx
    have hm : max 0 1 = 1 := rfl
    rw [hm]
    have htake : (c :: t').take 1 = [c] := rfl
    rw [htake]
    have hl : lastNLPos [c] = if c = '\n' then some 0 else none := rfl
    rw [hl]
    by_cases hc : c = '\n'
    · subst hc
      simp
    · have hne : ([c] : List Char) ≠ ['\n'] := by
        intro hcon
        exact hc (List.cons_eq_cons.mp hcon).1
      simp [hc, hne]

theorem blockEndIdx_ge (t : List Char) (en : Nat) (hen : en ≤ t.length) :
    en ≤ blockEndIdx t en := by
  unfold blockEndIdx
  rw [min_eq_left hen]
  omega

theorem blockEndIdx_le_length (t : List Char) (en : Nat)
    (hen : en ≤ t.length) : blockEndIdx t en ≤ t.length := by
  unfold blockEndIdx
  rw [min_eq_left hen]
  have h1 := nlDist_le_length (t.drop en)
  rw [List.length_drop] at h1
  omega

theorem drop_split (x : List Char) (b m : Nat) (hbm : b ≤ m)
    (hm : m ≤ x.length) :
    x.drop b = (x.take m).drop b ++ x.drop m := by
  conv_lhs => rw [← List.take_append_drop m x]
  rw [List.drop_append_eq_append_drop]
  have h1 : (x.take m).length = m := by
    rw [List.length_take]; omega
  rw [h1]
  have h2 : b - m = 0 := by omega
  rw [h2, List.drop_zero]

theorem lineStartIdx_one_cons (c : Char) (r : List Char) :
    lineStartIdx (c :: r) 1 = if c = '\n' then 1 else 0 := by
  unfold lineStartIdx
  have hm : max 1 1 = 1 := rfl
  rw [hm]
  have htake : (c :: r).take 1 = [c] := rfl
  rw [htake]
  have hl : lastNLPos [c] = if c = '\n' then some 0 else none := rfl
  rw [hl]
  by_cases hc : c = '\n' <;> simp [hc]

theorem lineStartIdx_concat_aux (t : List Char) (start e b : Nat)
    (hble : b ≤ start) (hstart_len : start ≤ t.length) (hstart_e : start ≤ e)
    (hnlp : '\n' ∉ (t.take start).drop b) :
    lineStartIdx
        (t.take b ++ indentBlock ((t.take e).drop b) ++ t.drop e) (start + 1)
      = match lastNLPos (t.take b) with
        | some i => i + 1
        | none => 0 := by
  have hxlen' : start ≤ (t.take e).length := by
    rw [List.length_take]
    omega
  have hsplit := drop_split (t.take e) b start hble hxlen'
  rw [List.take_take, min_eq_left hstart_e] at hsplit
  obtain ⟨r, hr⟩ :=
    indentBlock_cons_nlfree ((t.take start).drop b) ((t.take e).drop start) hnlp
  rw [hsplit, hr]
  have hassoc : t.take b ++ ('\t' :: ((t.take start).drop b ++ r)) ++ t.drop e
      = (t.take b ++ '\t' :: (t.take start).drop b) ++ (r ++ t.drop e) := by
    simp
  rw [hassoc]
  have hblen : (t.take b).length = b := by
    rw [List.length_take]; omega
  have hplen : ((t.take start).drop b).length = start - b := by
    rw [List.length_drop, List.length_take]; omega
  have hlen1 : (t.take b ++ '\t' :: (t.take start).drop b).length = start + 1 := by
    simp only [List.length_append, List.length_cons, hblen, hplen]
    omega
  have hq : '\n' ∉ '\t' :: (t.take start).drop b := by
    intro hmem
    rcases List.mem_cons.mp hmem with h1 | h1
    · exact absurd h1 (by decide)
    · exact hnlp h1
  unfold lineStartIdx
  rw [max_eq_left (by omega : 1 ≤ start + 1), List.take_left' hlen1,
    lastNLPos_append_nlfree _ _ hq]

theorem lineStartIdx_after_indent (t : List Char) (start en : Nat)
    (hse : start < en) (hen : en ≤ t.length) :
    lineStartIdx
      (t.take (lineStartIdx t start)
        ++ indentBlock
            ((t.take (blockEndIdx t en)).drop (lineStartIdx t start))
        ++ t.drop (blockEndIdx t en))
      (start + 1)
    = lineStartIdx t start := by
  have he_ge : en ≤ blockEndIdx t en := blockEndIdx_ge t en hen
  have he_le : blockEndIdx t en ≤ t.length := blockEndIdx_le_length t en hen
  have hstart_e : start < blockEndIdx t en := lt_of_lt_of_le hse he_ge
  rcases Nat.eq_zero_or_pos start with h0 | hpos
  · subst h0
    rw [lineStartIdx_zero t]
    by_cases hc : t.take 1 = ['\n']
    · rw [if_pos hc, hc, List.singleton_append, List.cons_append,
        lineStartIdx_one_cons]
      simp
    · rw [if_neg hc, List.take_zero, List.drop_zero, List.nil_append]
      obtain ⟨r, hr⟩ :=
        indentBlock_cons_nlfree [] (t.take (blockEndIdx t en)) (by simp)
      simp only [List.nil_append] at hr
      rw [hr, List.cons_append, lineStartIdx_one_cons]
      simp
  · rcases lineStart_cases t start hpos with ⟨hb0, hnl⟩ | ⟨i, hbi, hile, hlast, hnl⟩
    · rw [hb0]
      rw [lineStartIdx_concat_aux t start (blockEndIdx t en) 0 (by omega)
        (by omega) (le_of_lt hstart_e) (by simpa using hnl)]
      rw [List.take_zero]
      rfl
    · rw [hbi]
      rw [lineStartIdx_concat_aux t start (blockEndIdx t en) (i + 1) hile
        (by omega) (le_of_lt hstart_e) hnl]
      rw [hlast]

theorem blockEndIdx_concat (A B : List Char) (m : Nat) (hA : A.length = m) :
    blockEndIdx (A ++ B) m = m + nlDist B := by
  unfold blockEndIdx
  rw [List.drop_left' hA, List.length_append, hA, min_eq_left (by omega)]

theorem blockEndIdx_after_indent (t : List Char) (start en : Nat)
    (hse : start < en) (hen : en ≤ t.length) :
    blockEndIdx
      (t.take (lineStartIdx t start)
        ++ indentBlock
            ((t.take (blockEndIdx t en)).drop (lineStartIdx t start))
        ++ t.drop (blockEndIdx t en))
      (en + countLines ((t.take (blockEndIdx t en)).drop (lineStartIdx t start)))
    = blockEndIdx t en
      + countLines ((t.take (blockEndIdx t en)).drop (lineStartIdx t start)) := by
  have hb_le : lineStartIdx t start ≤ en := by
    have h1 := lineStartIdx_le_max t start
    have h2 : max start 1 ≤ en := by omega
    omega
  have he_ge : en ≤ blockEndIdx t en := blockEndIdx_ge t en hen
  have he_le : blockEndIdx t en ≤ t.length := blockEndIdx_le_length t en hen
  have he_def : blockEndIdx t en = en + nlDist (t.drop en) := by
    unfold blockEndIdx
    rw [min_eq_left hen]
  have henlen : en ≤ (t.take (blockEndIdx t en)).length := by
    rw [List.length_take]; omega
  have hsplit := drop_split (t.take (blockEndIdx t en)) (lineStartIdx t start)
    en hb_le henlen
  rw [List.take_take, min_eq_left he_ge] at hsplit
  have hv_eq : (t.take (blockEndIdx t en)).drop en
      = (t.drop en).take (nlDist (t.drop en)) := by
    rw [List.drop_take]
    congr 1
    omega
  have hv_nl : '\n' ∉ (t.take (blockEndIdx t en)).drop en := by
    rw [hv_eq]
    exact nlfree_take_nlDist _
  have hn_eq : countLines ((t.take (blockEndIdx t en)).drop (lineStartIdx t start))
      = countLines ((t.take en).drop (lineStartIdx t start)) := by
    rw [hsplit]
    exact countLines_append_nlfree _ _ hv_nl
  have hIB : indentBlock ((t.take (blockEndIdx t en)).drop (lineStartIdx t start))
      = indentBlock ((t.take en).drop (lineStartIdx t start))
        ++ (t.take (blockEndIdx t en)).drop en := by
    rw [hsplit]
    exact indentBlock_append_nlfree _ _ hv_nl
  have hblen : (t.take (lineStartIdx t start)).length = lineStartIdx t start := by
    rw [List.length_take]; omega
  have hulen : ((t.take en).drop (lineStartIdx t start)).length
      = en - lineStartIdx t start := by
    rw [List.length_drop, List.length_take]; omega
  have hvlen : ((t.take (blockEndIdx t en)).drop en).length
      = blockEndIdx t en - en := by
    rw [List.length_drop, List.length_take]; omega
  rw [hIB, hn_eq]
  have hassoc : t.take (lineStartIdx t start)
      ++ (indentBlock ((t.take en).drop (lineStartIdx t start))
          ++ (t.take (blockEndIdx t en)).drop en)
      ++ t.drop (blockEndIdx t en)
      = (t.take (lineStartIdx t start)
          ++ indentBlock ((t.take en).drop (lineStartIdx t start)))
        ++ ((t.take (blockEndIdx t en)).drop en ++ t.drop (blockEndIdx t en)) := by
    simp
  rw [hassoc]
  have hfirstlen : (t.take (lineStartIdx t start)
      ++ indentBlock ((t.take en).drop (lineStartIdx t start))).length
      = en + countLines ((t.take en).drop (lineStartIdx t start)) := by
    rw [List.length_append, hblen, length_indentBlock, hulen]
    omega
  rw [blockEndIdx_concat _ _ _ hfirstlen]
  have hdrop0 : nlDist (t.drop (blockEndIdx t en)) = 0 := by
    have hdd : t.drop (blockEndIdx t en)
        = (t.drop en).drop (nlDist (t.drop en)) := by
      rw [List.drop_drop]
      congr 1
    rw [hdd]
    rcases drop_nlDist_cases (t.drop en) with h | ⟨r, h⟩
    · rw [h]; rfl
    · rw [h]; exact nlDist_nl_cons r
  rw [nlDist_append_nlfree _ _ hv_nl, hvlen, hdrop0]
  omega

theorem slice_after_indent (t : List Char) (start en : Nat)
    (hse : start < en) (hen : en ≤ t.length) :
    ((t.take (lineStartIdx t start)
        ++ indentBlock
            ((t.take (blockEndIdx t en)).drop (lineStartIdx t start))
        ++ t.drop (blockEndIdx t en)).take
      (blockEndIdx t en
        + countLines ((t.take (blockEndIdx t en)).drop (lineStartIdx t start)))).drop
      (lineStartIdx t start)
    = indentBlock ((t.take (blockEndIdx t en)).drop (lineStartIdx t start)) := by
  have hb_le : lineStartIdx t start ≤ en := by
    have h1 := lineStartIdx_le_max t start
    have h2 : max start 1 ≤ en := by omega
    omega
  have he_ge : en ≤ blockEndIdx t en := blockEndIdx_ge t en hen
  have he_le : blockEndIdx t en ≤ t.length := blockEndIdx_le_length t en hen
  have hblen : (t.take (lineStartIdx t start)).length = lineStartIdx t start := by
    rw [List.length_take]; omega
  have hblocklen : ((t.take (blockEndIdx t en)).drop (lineStartIdx t start)).length
      = blockEndIdx t en - lineStartIdx t start := by
    rw [List.length_drop, List.length_take]; omega
  have hassoc : t.take (lineStartIdx t start)
      ++ indentBlock ((t.take (blockEndIdx t en)).drop (lineStartIdx t start))
      ++ t.drop (blockEndIdx t en)
      = (t.take (lineStartIdx t start)
          ++ indentBlock ((t.take (blockEndIdx t en)).drop (lineStartIdx t start)))
        ++ t.drop (blockEndIdx t en) := by
    simp
  rw [hassoc]
  have hfl : (t.take (lineStartIdx t start)
      ++ indentBlock ((t.take (blockEndIdx t en)).drop (lineStartIdx t start))).length
      = blockEndIdx t en
        + countLines ((t.take (blockEndIdx t en)).drop (lineStartIdx t start)) := by
    rw [List.length_append, hblen, length_indentBlock, hblocklen]
    omega
  rw [List.take_left' hfl, List.drop_left' hblen]

theorem drop_after_indent (t : List Char) (start en : Nat)
    (hse : start < en) (hen : en ≤ t.length) :
    (t.take (lineStartIdx t start)
        ++ indentBlock
            ((t.take (blockEndIdx t en)).drop (lineStartIdx t start))
        ++ t.drop (blockEndIdx t en)).drop
      (blockEndIdx t en
        + countLines ((t.take (blockEndIdx t en)).drop (lineStartIdx t start)))
    = t.drop (blockEndIdx t en) := by
  have hb_le : lineStartIdx t start ≤ en := by
    have h1 := lineStartIdx_le_max t start
    have h2 : max start 1 ≤ en := by omega
    omega
  have he_ge : en ≤ blockEndIdx t en := blockEndIdx_ge t en hen
  have he_le : blockEndIdx t en ≤ t.length := blockEndIdx_le_length t en hen
  have hblen : (t.take (lineStartIdx t start)).length = lineStartIdx t start := by
    rw [List.length_take]; omega
  have hblocklen : ((t.take (blockEndIdx t en)).drop (lineStartIdx t start)).length
      = blockEndIdx t en - lineStartIdx t start := by
    rw [List.length_drop, List.length_take]; omega
  have hassoc : t.take (lineStartIdx t start)
      ++ indentBlock ((t.take (blockEndIdx t en)).drop (lineStartIdx t start))
      ++ t.drop (blockEndIdx t en)
      = (t.take (lineStartIdx t start)
          ++ indentBlock ((t.take (blockEndIdx t en)).drop (lineStartIdx t start)))
        ++ t.drop (blockEndIdx t en) := by
    simp
  rw [hassoc]
  have hfl : (t.take (lineStartIdx t start)
      ++ indentBlock ((t.take (blockEndIdx t en)).drop (lineStartIdx t start))).length
      = blockEndIdx t en
        + countLines ((t.take (blockEndIdx t en)).drop (lineStartIdx t start)) := by
    rw [List.length_append, hblen, length_indentBlock, hblocklen]
    omega
  rw [List.drop_left' hfl]

theorem take_prefix_after_indent (t : List Char) (start en : Nat)
    (hse : start < en) (hen : en ≤ t.length) :
    (t.take (lineStartIdx t start)
        ++ indentBlock
            ((t.take (blockEndIdx t en)).drop (lineStartIdx t start))
        ++ t.drop (blockEndIdx t en)).take (lineStartIdx t start)
    = t.take (lineStartIdx t start) := by
  have hb_le : lineStartIdx t start ≤ en := by
    have h1 := lineStartIdx_le_max t start
    have h2 : max start 1 ≤ en := by omega
    omega
  have hblen : (t.take (lineStartIdx t start)).length = lineStartIdx t start := by
    rw [List.length_take]; omega
  rw [List.append_assoc, List.take_left' hblen]

theorem pressTab_indent_sel (d : Doc) (h : d.caretStart ≠ d.caretEnd) :
    pressTab false d
      = ⟨d.text.take (lineStartIdx d.text d.caretStart)
          ++ indentBlock ((d.text.take (blockEndIdx d.text d.caretEnd)).drop
              (lineStartIdx d.text d.caretStart))
          ++ d.text.drop (blockEndIdx d.text d.caretEnd),
        d.caretStart + 1,
        d.caretEnd + countLines ((d.text.take (blockEndIdx d.text d.caretEnd)).drop
            (lineStartIdx d.text d.caretStart))⟩ := by
  simp [pressTab, h, INDENT]

theorem pressTab_outdent_sel (d : Doc) (h : d.caretStart ≠ d.caretEnd) :
    (pressTab true d).text
      = d.text.take (lineStartIdx d.text d.caretStart)
          ++ outdentBlock ((d.text.take (blockEndIdx d.text d.caretEnd)).drop
              (lineStartIdx d.text d.caretStart))
          ++ d.text.drop (blockEndIdx d.text d.caretEnd) := by
  simp [pressTab, h]

/-- C6: for every document and non-empty selection inside the buffer,
pressing Tab (block indent) and then Shift+Tab (block outdent) with the
selection the editor itself produced restores the original buffer text
exactly.  With the one-character tab indent unit of the code, no line can
carry partial indentation narrower than one unit, so the
pre-condition is vacuously true and is not needed. -/
theorem c6_round_trip (d : Doc)
    (h1 : d.caretStart < d.caretEnd) (h2 : d.caretEnd ≤ d.text.length) :
    (pressTab true (pressTab false d)).text = d.text := by
  obtain ⟨t, start, en⟩ := d
  simp only at h1 h2
  have hne : start ≠ en := Nat.ne_of_lt h1
  rw [pressTab_indent_sel ⟨t, start, en⟩ hne]
  have hn1 : 1 ≤ countLines ((t.take (blockEndIdx t en)).drop (lineStartIdx t start)) := by
    have hs := splitNL_ne_nil ((t.take (blockEndIdx t en)).drop (lineStartIdx t start))
    have hp := List.length_pos.mpr hs
    simpa [countLines] using hp
  have hne2 : start + 1
      ≠ en + countLines ((t.take (blockEndIdx t en)).drop (lineStartIdx t start)) := by
    omega
  rw [pressTab_outdent_sel _ hne2]
  rw [lineStartIdx_after_indent t start en h1 h2,
    blockEndIdx_after_indent t start en h1 h2,
    slice_after_indent t start en h1 h2,
    outdentBlock_indentBlock,
    drop_after_indent t start en h1 h2,
    take_prefix_after_indent t start en h1 h2]
  have hb_le : lineStartIdx t start ≤ blockEndIdx t en := by
    have ha := lineStartIdx_le_max t start
    have hb := blockEndIdx_ge t en h2
    omega
  have h3 : t.take (lineStartIdx t start)
      = (t.take (blockEndIdx t en)).take (lineStartIdx t start) := by
    rw [List.take_take, min_eq_left hb_le]
  rw [h3, List.take_append_drop, List.take_append_drop]

/-- C6 (witness): indenting then outdenting the full selection of a
two-line buffer restores it. -/
theorem c6_round_trip_witness :
    (pressTab true (pressTab false ⟨"a\nb".data, 0, 3⟩)).text = "a\nb".data :=
  c6_round_trip ⟨"a\nb".data, 0, 3⟩ (by decide) (by decide)

/-- The per-line outdent transform exactly as the claim words it: a line
beginning with exactly one indent unit, or with a run of spaces no
longer than the indent width, has that leading run stripped; every other
line -- including a line whose leading space run is longer than the
indent width -- is left unchanged. -/
def outdentLineSpecC5 (l : List Char) : List Char :=
  if l.take INDENT.length = INDENT then l.drop INDENT.length
  else
    if 1 ≤ (l.takeWhile (fun c => c = ' ')).length
        ∧ (l.takeWhile (fun c => c = ' ')).length ≤ INDENT.length then
      l.drop (l.takeWhile (fun c => c = ' ')).length
    else l

/-- The per-line outdent transform as the amended claim words it: a line
beginning with the indent unit loses it; otherwise a line loses the
first min(leading-space-run, indent width) spaces -- one space with the
one-character unit of the code, even when the run is longer; all other lines
are unchanged. -/
def outdentLineAmended (l : List Char) : List Char :=
  if l.take INDENT.length = INDENT then l.drop INDENT.length
  else l.drop (min (l.takeWhile (fun c => c = ' ')).length INDENT.length)

theorem outdentLine_eq_amended (l : List Char) :
    outdentLine l = outdentLineAmended l := by
  cases l with
  | nil => rfl
  | cons c rest =>
    by_cases ht : c = '\t'
    · subst ht
      have h1 : ('\t' :: rest).take INDENT.length = INDENT := rfl
      unfold outdentLineAmended
      rw [if_pos h1]
      rfl
    · by_cases hs : c = ' '
      · subst hs
        have h1 : (' ' :: rest).take INDENT.length = [' '] := rfl
        have h2 : min ((' ' :: rest).takeWhile (fun c => c = ' ')).length
            INDENT.length = INDENT.length := by
          apply min_eq_right
          rw [List.takeWhile_cons]
          simp [INDENT]
        unfold outdentLineAmended
        rw [h1, if_neg (by decide : ([' '] : List Char) ≠ INDENT), h2]
        rfl
      · have h1 : (c :: rest).take INDENT.length = [c] := rfl
        have hne : ([c] : List Char) ≠ INDENT := by
          intro hcon
          exact ht (List.cons_eq_cons.mp hcon).1
        have h2 : (c :: rest).takeWhile (fun c => c = ' ') = [] := by
          rw [List.takeWhile_cons]
          simp [hs]
        unfold outdentLineAmended
        rw [h1, if_neg hne, h2]
        show outdentLine (c :: rest) = (c :: rest).drop (min ([] : List Char).length INDENT.length)
        have h3 : min ([] : List Char).length INDENT.length = 0 := by simp
        rw [h3, List.drop_zero]
        show (if c = '\t' then rest else if c = ' ' then rest else c :: rest) = c :: rest
        rw [if_neg ht, if_neg hs]

/-- C5 (counterexample): outdenting a selected line that begins with two
spaces (a run longer than the one-character indent width) strips one
space, while the per-line transform leaves such a line
unchanged. -/
theorem c5_counterexample :
    (pressTab true ⟨"  ab".data, 0, 4⟩).text = " ab".data
    ∧ joinNL ((splitNL "  ab".data).map outdentLineSpecC5) = "  ab".data
    ∧ " ab".data ≠ "  ab".data := by
  decide

/-- C5 (amended): for every document and non-empty selection, Shift+Tab
outdent rewrites the affected block line by line: a line beginning with
the tab indent unit loses it; otherwise a line loses min(leading space
run, indent width) spaces -- exactly one space with the code's
one-character unit, even when the run is longer than the width; all
other lines are unchanged. -/
theorem c5_amended (d : Doc) (h : d.caretStart ≠ d.caretEnd) :
    (pressTab true d).text
      = d.text.take (lineStartIdx d.text d.caretStart)
        ++ joinNL ((splitNL ((d.text.take (blockEndIdx d.text d.caretEnd)).drop
              (lineStartIdx d.text d.caretStart))).map outdentLineAmended)
        ++ d.text.drop (blockEndIdx d.text d.caretEnd) := by
  rw [pressTab_outdent_sel d h]
  unfold outdentBlock
  have hfun : outdentLine = outdentLineAmended := funext outdentLine_eq_amended
  rw [hfun]

/-- C5 (witness for the amended theorem), over a three-line block with a
tab-indented line, a two-space line and an unindented line. -/
theorem c5_amended_witness :
    (pressTab true ⟨"\tx\n  y\nz".data, 0, 8⟩).text
      = "\tx\n  y\nz".data.take (lineStartIdx "\tx\n  y\nz".data 0)
        ++ joinNL ((splitNL (("\tx\n  y\nz".data.take
              (blockEndIdx "\tx\n  y\nz".data 8)).drop
              (lineStartIdx "\tx\n  y\nz".data 0))).map outdentLineAmended)
        ++ "\tx\n  y\nz".data.drop (blockEndIdx "\tx\n  y\nz".data 8) :=
  c5_amended ⟨"\tx\n  y\nz".data, 0, 8⟩ (by decide)
